import Mathlib

/-!
Shallow embedding of the disk-access path of the repository:
`src/filesys/file.c` (file handles and the sector-walking read loop) and
`src/devices/disk.c` (the deadline-ordered disk request scheduler).

Machine integers (`off_t`, `int`) are embedded as `Int`; the values these
functions manipulate (offsets, sizes, sector indices, deadlines) stay far
below 2^31 in every stated scenario, so no wrap-around modelling is needed.
C's `%` on signed operands truncates toward zero, so it is embedded as
`Int.tmod`. C's ternary `a < b ? a : b` is embedded as `min a b`, which
agrees with it at every input.

External collaborators that are not part of `src/` (the buffer cache and
the inode layer) are modelled from the spec where a claim needs their
behaviour; each such definition carries a doc comment saying so.
-/

/-- BLOCK_SECTOR_SIZE from the block device layer: the fixed sector size. -/
def BLOCK_SECTOR_SIZE : Int := 512

/-- Environment view of the inode layer (out of scope in the source,
specified at its interface): `length` is `inode_length`, and `sectorOf`
is `byte_to_sector`, returning -1 as the sentinel for an unmapped offset. -/
structure Inode where
  length : Int
  sectorOf : Int → Int

/-- The caller's byte buffer, addressed relative to its start. -/
def Buf : Type := Int → Int

/-- Modelled from the spec: `buffer_cache_read` (buffer cache, not under
`src/`) synchronously stores the full sector's current contents —
`BLOCK_SECTOR_SIZE` bytes, beginning at the sector's first byte — into the
destination buffer position. `disk` gives each sector's current contents. -/
def buffer_cache_read (disk : Int → Int → Int) (sector_idx : Int) (buf : Buf)
    (dst : Int) : Buf :=
  fun i => if dst ≤ i ∧ i < dst + BLOCK_SECTOR_SIZE then disk sector_idx (i - dst) else buf i

/-- Modelled from the spec: `cache_read_ahead` (buffer cache, not under
`src/`) takes the sector just read and records a non-binding prefetch hint
naming the immediately following sector; the hint never blocks and never
fails. The hint list is the ghost trace of hinted sectors, in issue order. -/
def cache_read_ahead (hints : List Int) (sector_idx : Int) : List Int :=
  hints ++ [sector_idx + 1]

/-- Result of one `file_read_at` call: the returned byte count, the
caller's buffer after the call, and the ghost traces of sectors consumed
and read-ahead hints issued, in order. -/
structure ReadResult where
  bytes_read : Int
  buffer : Buf
  sectors : List Int
  hints : List Int

/-- The `while (size > 0)` loop body of `file_read_at`
(`src/filesys/file.c:85`–113), with the loop state passed explicitly:
`size` bytes still requested, `file_ofs` the current file offset, `dst`
the current write position in the caller's buffer (`buffer_` minus its
start), `bytes_read` the running count. Each iteration translates the
offset to a sector (stopping at the -1 sentinel), computes
`chunk_size = min(size, min(inode_left, sector_left))`, stops if it is
not positive, calls `buffer_cache_read(sector_idx, buffer_)` — which
stores the whole sector at `dst` — advances the cursors by `chunk_size`,
and calls `cache_read_ahead(sector_idx)`. -/
def file_read_at_loop (ino : Inode) (disk : Int → Int → Int) (buffer : Buf)
    (size file_ofs dst bytes_read : Int) (sectors hints : List Int) : ReadResult :=
  if _hsz : size ≤ 0 then ⟨bytes_read, buffer, sectors, hints⟩
  else
    let sector_idx := ino.sectorOf file_ofs
    if _hsec : sector_idx = -1 then ⟨bytes_read, buffer, sectors, hints⟩
    else
      let sector_ofs := Int.tmod file_ofs BLOCK_SECTOR_SIZE
      let inode_left := ino.length - file_ofs
      let sector_left := BLOCK_SECTOR_SIZE - sector_ofs
      let min_left := min inode_left sector_left
      let chunk_size := min size min_left
      if _hch : chunk_size ≤ 0 then ⟨bytes_read, buffer, sectors, hints⟩
      else
        file_read_at_loop ino disk (buffer_cache_read disk sector_idx buffer dst)
          (size - chunk_size) (file_ofs + chunk_size) (dst + chunk_size)
          (bytes_read + chunk_size) (sectors ++ [sector_idx])
          (cache_read_ahead hints sector_idx)
termination_by size.toNat
decreasing_by omega

/-- An open file (`struct file`, `src/filesys/file.c:7`–12). -/
structure File where
  inode : Inode
  pos : Int
  deny_write : Bool

/-- `file_read_at` (`src/filesys/file.c:81`–115): runs the sector-walking
loop from a zero buffer position and zero running count. The function
never assigns to any field of `file`, so the handle component of the
result is the unchanged handle. -/
def file_read_at (f : File) (disk : Int → Int → Int) (buffer : Buf)
    (size file_ofs : Int) : File × ReadResult :=
  (f, file_read_at_loop f.inode disk buffer size file_ofs 0 0 [] [])

/-- Modelled from the spec: `inode_write_at` (inode layer, not under
`src/`) writes up to `size` bytes at `file_ofs`, truncated at end of file
because file growth is not implemented, and returns the count written. -/
def inode_write_at (ino : Inode) (size file_ofs : Int) : Int :=
  max 0 (min size (ino.length - file_ofs))

/-- `file_write_at` (`src/filesys/file.c:139`–144): a thin pass-through to
`inode_write_at`; no field of `file` is assigned. -/
def file_write_at (f : File) (size file_ofs : Int) : File × Int :=
  (f, inode_write_at f.inode size file_ofs)

/-- Calls emitted by the file layer into the inode layer, as a ghost
trace: `inode_deny_write`, `inode_allow_write`, `inode_close`. -/
inductive InodeCall where
  | denyWrite
  | allowWrite
  | closeInode
deriving DecidableEq, Repr

/-- `file_open` (`src/filesys/file.c:17`–34). `calloc` is modelled by the
`allocOk` flag; the returned pair is the result pointer and whether the
failure branch ran `inode_close (inode)` (on a null inode that call is a
no-op in the inode layer). Success requires both a non-null inode and a
successful allocation, and zero-initialises `pos` and `deny_write`. -/
def file_open : Option Inode → Bool → Option File × Bool
  | some ino, true => (some { inode := ino, pos := 0, deny_write := false }, false)
  | none, _ => (none, true)
  | some _, false => (none, true)

/-- `file_deny_write` (`src/filesys/file.c:148`–157): sets the flag and
propagates `inode_deny_write` only when the flag was clear. Returns the
updated handle and the trace of inode calls made. -/
def file_deny_write (f : File) : File × List InodeCall :=
  if f.deny_write then (f, [])
  else ({ f with deny_write := true }, [InodeCall.denyWrite])

/-- `file_allow_write` (`src/filesys/file.c:162`–171): clears the flag and
propagates `inode_allow_write` only when the flag was set. -/
def file_allow_write (f : File) : File × List InodeCall :=
  if f.deny_write then ({ f with deny_write := false }, [InodeCall.allowWrite])
  else (f, [])

/-- `file_close` (`src/filesys/file.c:45`–54): no-op on a null handle;
otherwise `file_allow_write` then `inode_close`, in that order. The
result is the trace of inode calls made. -/
def file_close : Option File → List InodeCall
  | none => []
  | some f => (file_allow_write f).2 ++ [InodeCall.closeInode]

/-- A client-visible operation on a handle's write-denial state. -/
inductive FileOp where
  | deny
  | allow
deriving DecidableEq, Repr

/-- Applies one deny/allow operation to a handle, appending the inode
calls it propagates to the running trace. -/
def applyOp (st : File × List InodeCall) (op : FileOp) : File × List InodeCall :=
  match op with
  | FileOp.deny =>
      let r := file_deny_write st.1
      (r.1, st.2 ++ r.2)
  | FileOp.allow =>
      let r := file_allow_write st.1
      (r.1, st.2 ++ r.2)

/-- Runs a sequence of deny/allow operations on a handle, collecting the
trace of propagated inode calls. -/
def runOps (f : File) (ops : List FileOp) : File × List InodeCall :=
  ops.foldl applyOp (f, [])

/-- Net outstanding inode write denials recorded in a trace: each
`inode_deny_write` counts +1, each `inode_allow_write` counts -1. -/
def netDenials : List InodeCall → Int
  | [] => 0
  | InodeCall.denyWrite :: cs => 1 + netDenials cs
  | InodeCall.allowWrite :: cs => -1 + netDenials cs
  | InodeCall.closeInode :: cs => netDenials cs

/-- A pending disk transfer (`struct disk_request`, `src/devices/disk.h`).
The opaque `data` pointer is embedded as a `Nat` tag; `elem` is the
intrusive list link and has no counterpart here. -/
structure DiskRequest where
  sector : Int
  is_write : Bool
  data : Nat
  deadline : Int
deriving DecidableEq, Repr

/-- `disk_request_compare` (`src/devices/disk.c:26`–30): strictly smaller
deadline orders earlier. -/
def disk_request_compare (a b : DiskRequest) : Bool :=
  a.deadline < b.deadline

/-- Modelled from the spec: `list_insert_ordered` (Pintos list library,
not under `src/`) scans the queue from the front and inserts the new
element immediately before the first element that the comparator orders
strictly after it, so a new request lands after every queued request with
a deadline less than or equal to its own. -/
def list_insert_ordered (q : List DiskRequest) (r : DiskRequest) : List DiskRequest :=
  match q with
  | [] => [r]
  | x :: xs => if disk_request_compare r x then r :: x :: xs else x :: list_insert_ordered xs r

/-- Outcome of one `disk_schedule_request` call: the updated queue, or the
fault the source commits when `malloc` returns null (it stores through
the null pointer at `src/devices/disk.c:16` with no check; the function
returns `void`, so no error value can reach the caller). -/
inductive SchedResult where
  | ok (q : List DiskRequest)
  | nullDereference
deriving DecidableEq, Repr

/-- `disk_schedule_request` (`src/devices/disk.c:14`–24): allocates a
request record (`allocOk` models the `malloc` result), fills the fields,
and inserts it in deadline order under the queue lock. On allocation
failure the very next statement dereferences the null pointer. -/
def disk_schedule_request (allocOk : Bool) (q : List DiskRequest)
    (sector : Int) (is_write : Bool) (data : Nat) (deadline : Int) : SchedResult :=
  if allocOk then
    SchedResult.ok (list_insert_ordered q
      ({ sector := sector, is_write := is_write, data := data, deadline := deadline }))
  else
    SchedResult.nullDereference

/-- The queue produced by submitting `reqs` in order through
`disk_schedule_request` (success path), starting from the empty queue. -/
def enqueueAll (reqs : List DiskRequest) : List DiskRequest :=
  reqs.foldl list_insert_ordered []

/-- One dequeue step of the worker loop `disk_process`
(`src/devices/disk.c:32`–51): `list_pop_front` on a non-empty queue. -/
def disk_pop : List DiskRequest → List DiskRequest
  | [] => []
  | _ :: rest => rest

/-- Ascending-deadline order between two queued requests. -/
def deadlineLE (a b : DiskRequest) : Prop :=
  a.deadline ≤ b.deadline

instance : DecidableRel deadlineLE := fun a b => by
  unfold deadlineLE; infer_instance

/-- Concrete two-sector inode for the boundary-read scenario: 1024 bytes,
every byte offset below the length mapped contiguously to sectors 0 and 1. -/
def demo_inode : Inode where
  length := 1024
  sectorOf := fun o => if 0 ≤ o ∧ o < 1024 then o / 512 else -1

/-- Concrete sector contents for the boundary-read scenario: byte `i` of
sector `s` holds `1000 * s + i`, so every byte of the two sectors is
distinct and identifies its source. -/
def demo_disk : Int → Int → Int := fun s i => 1000 * s + i

/-- Concrete caller buffer for the boundary-read scenario, filled with the
sentinel -1 so overwritten positions are visible. -/
def demo_buf : Buf := fun _ => -1

/-- Concrete handle over `demo_inode`. -/
def demo_file : File where
  inode := demo_inode
  pos := 0
  deny_write := false

theorem tmod_sector_bounds (a : Int) (ha : 0 ≤ a) :
    0 ≤ Int.tmod a BLOCK_SECTOR_SIZE ∧ Int.tmod a BLOCK_SECTOR_SIZE < BLOCK_SECTOR_SIZE := by
  have hB : BLOCK_SECTOR_SIZE = 512 := rfl
  rw [hB, Int.tmod_eq_emod ha (by norm_num)]
  exact ⟨Int.emod_nonneg a (by norm_num), Int.emod_lt_of_pos a (by norm_num)⟩

theorem file_read_at_loop_mono (ino : Inode) (disk : Int → Int → Int) (buffer : Buf)
    (size file_ofs dst bytes_read : Int) (sectors hints : List Int) :
    bytes_read ≤ (file_read_at_loop ino disk buffer size file_ofs dst bytes_read sectors hints).bytes_read := by
  induction buffer, size, file_ofs, dst, bytes_read, sectors, hints using file_read_at_loop.induct ino disk with
  | case1 buffer size file_ofs dst bytes_read sectors hints h =>
      rw [file_read_at_loop.eq_def]
      simp only [dif_pos h]
      exact le_refl bytes_read
  | case2 buffer size file_ofs dst bytes_read sectors hints h1 sidx h2 =>
      rw [file_read_at_loop.eq_def]
      simp only [dif_neg h1, dif_pos h2]
      exact le_refl bytes_read
  | case3 buffer size file_ofs dst bytes_read sectors hints h1 sidx h2 so il sl ml ch h3 =>
      rw [file_read_at_loop.eq_def]
      simp only [dif_neg h1, dif_neg h2, dif_pos h3]
      exact le_refl bytes_read
  | case4 buffer size file_ofs dst bytes_read sectors hints h1 sidx h2 so il sl ml ch h3 ih =>
      rw [file_read_at_loop.eq_def]
      simp only [dif_neg h1, dif_neg h2, dif_neg h3]
      calc bytes_read ≤ bytes_read + ch := by omega
        _ ≤ _ := ih

theorem file_read_at_loop_stationary (ino : Inode) (disk : Int → Int → Int) (buffer : Buf)
    (size file_ofs dst bytes_read : Int) (sectors hints : List Int) :
    (file_read_at_loop ino disk buffer size file_ofs dst bytes_read sectors hints).bytes_read = bytes_read →
    file_read_at_loop ino disk buffer size file_ofs dst bytes_read sectors hints =
      ⟨bytes_read, buffer, sectors, hints⟩ := by
  induction buffer, size, file_ofs, dst, bytes_read, sectors, hints using file_read_at_loop.induct ino disk with
  | case1 buffer size file_ofs dst bytes_read sectors hints h =>
      intro _
      rw [file_read_at_loop.eq_def]
      simp only [dif_pos h]
  | case2 buffer size file_ofs dst bytes_read sectors hints h1 sidx h2 =>
      intro _
      rw [file_read_at_loop.eq_def]
      simp only [dif_neg h1, dif_pos h2]
  | case3 buffer size file_ofs dst bytes_read sectors hints h1 sidx h2 so il sl ml ch h3 =>
      intro _
      rw [file_read_at_loop.eq_def]
      simp only [dif_neg h1, dif_neg h2, dif_pos h3]
  | case4 buffer size file_ofs dst bytes_read sectors hints h1 sidx h2 so il sl ml ch h3 ih =>
      intro hb
      exfalso
      rw [file_read_at_loop.eq_def] at hb
      simp only [dif_neg h1, dif_neg h2, dif_neg h3] at hb
      have hm := file_read_at_loop_mono ino disk (buffer_cache_read disk sidx buffer dst)
        (size - ch) (file_ofs + ch) (dst + ch) (bytes_read + ch) (sectors ++ [sidx])
        (cache_read_ahead hints sidx)
      have hle : bytes_read + ch ≤ bytes_read := hm.trans (le_of_eq hb)
      omega

theorem file_read_at_loop_count (ino : Inode) (disk : Int → Int → Int) (buffer : Buf)
    (size file_ofs dst bytes_read : Int) (sectors hints : List Int)
    (hmap : ∀ o, 0 ≤ o → o < ino.length → ino.sectorOf o ≠ -1) :
    0 ≤ file_ofs →
    (file_read_at_loop ino disk buffer size file_ofs dst bytes_read sectors hints).bytes_read =
      bytes_read + max 0 (min size (ino.length - file_ofs)) := by
  induction buffer, size, file_ofs, dst, bytes_read, sectors, hints using file_read_at_loop.induct ino disk with
  | case1 buffer size file_ofs dst bytes_read sectors hints h =>
      intro _
      rw [file_read_at_loop.eq_def]
      simp only [dif_pos h]
      omega
  | case2 buffer size file_ofs dst bytes_read sectors hints h1 sidx h2 =>
      intro hofs
      rw [file_read_at_loop.eq_def]
      simp only [dif_neg h1, dif_pos h2]
      have hsi : ino.sectorOf file_ofs = -1 := h2
      have hlen : ¬ file_ofs < ino.length := fun hc => hmap file_ofs hofs hc hsi
      omega
  | case3 buffer size file_ofs dst bytes_read sectors hints h1 sidx h2 so il sl ml ch h3 =>
      intro hofs
      rw [file_read_at_loop.eq_def]
      simp only [dif_neg h1, dif_neg h2, dif_pos h3]
      have h3x : min size (min (ino.length - file_ofs)
          (BLOCK_SECTOR_SIZE - Int.tmod file_ofs BLOCK_SECTOR_SIZE)) ≤ 0 := h3
      have hb := tmod_sector_bounds file_ofs hofs
      have hB : BLOCK_SECTOR_SIZE = 512 := rfl
      omega
  | case4 buffer size file_ofs dst bytes_read sectors hints h1 sidx h2 so il sl ml ch h3 ih =>
      intro hofs
      rw [file_read_at_loop.eq_def]
      simp only [dif_neg h1, dif_neg h2, dif_neg h3]
      have hchx : ch = min size (min (ino.length - file_ofs)
          (BLOCK_SECTOR_SIZE - Int.tmod file_ofs BLOCK_SECTOR_SIZE)) := rfl
      have hb := tmod_sector_bounds file_ofs hofs
      have hB : BLOCK_SECTOR_SIZE = 512 := rfl
      have hrec := ih (by omega)
      show (file_read_at_loop ino disk (buffer_cache_read disk sidx buffer dst)
          (size - ch) (file_ofs + ch) (dst + ch) (bytes_read + ch) (sectors ++ [sidx])
          (cache_read_ahead hints sidx)).bytes_read =
        bytes_read + max 0 (min size (ino.length - file_ofs))
      rw [hrec]
      omega

theorem file_read_at_loop_last_window (ino : Inode) (disk : Int → Int → Int) (buffer : Buf)
    (size file_ofs dst bytes_read : Int) (sectors hints : List Int) :
    0 ≤ file_ofs → dst = bytes_read →
    bytes_read < (file_read_at_loop ino disk buffer size file_ofs dst bytes_read sectors hints).bytes_read →
    ∃ s c, 0 < c ∧ c ≤ BLOCK_SECTOR_SIZE ∧
      ∀ j, (file_read_at_loop ino disk buffer size file_ofs dst bytes_read sectors hints).bytes_read - c ≤ j →
        j < (file_read_at_loop ino disk buffer size file_ofs dst bytes_read sectors hints).bytes_read - c
          + BLOCK_SECTOR_SIZE →
        (file_read_at_loop ino disk buffer size file_ofs dst bytes_read sectors hints).buffer j =
          disk s (j - ((file_read_at_loop ino disk buffer size file_ofs dst bytes_read sectors hints).bytes_read - c)) := by
  induction buffer, size, file_ofs, dst, bytes_read, sectors, hints using file_read_at_loop.induct ino disk with
  | case1 buffer size file_ofs dst bytes_read sectors hints h =>
      intro _ _ hlt
      exfalso
      rw [file_read_at_loop.eq_def] at hlt
      simp only [dif_pos h] at hlt
      omega
  | case2 buffer size file_ofs dst bytes_read sectors hints h1 sidx h2 =>
      intro _ _ hlt
      exfalso
      rw [file_read_at_loop.eq_def] at hlt
      simp only [dif_neg h1, dif_pos h2] at hlt
      omega
  | case3 buffer size file_ofs dst bytes_read sectors hints h1 sidx h2 so il sl ml ch h3 =>
      intro _ _ hlt
      exfalso
      rw [file_read_at_loop.eq_def] at hlt
      simp only [dif_neg h1, dif_neg h2, dif_pos h3] at hlt
      omega
  | case4 buffer size file_ofs dst bytes_read sectors hints h1 sidx h2 so il sl ml ch h3 ih =>
      intro hofs hdb hlt
      have hchx : ch = min size (min (ino.length - file_ofs)
          (BLOCK_SECTOR_SIZE - Int.tmod file_ofs BLOCK_SECTOR_SIZE)) := rfl
      have hb := tmod_sector_bounds file_ofs hofs
      have hB : BLOCK_SECTOR_SIZE = 512 := rfl
      have hstep : file_read_at_loop ino disk buffer size file_ofs dst bytes_read sectors hints =
          file_read_at_loop ino disk (buffer_cache_read disk sidx buffer dst)
            (size - ch) (file_ofs + ch) (dst + ch) (bytes_read + ch) (sectors ++ [sidx])
            (cache_read_ahead hints sidx) := by
        rw [file_read_at_loop.eq_def]
        simp only [dif_neg h1, dif_neg h2, dif_neg h3]
      rw [hstep] at hlt ⊢
      have hmono := file_read_at_loop_mono ino disk (buffer_cache_read disk sidx buffer dst)
        (size - ch) (file_ofs + ch) (dst + ch) (bytes_read + ch) (sectors ++ [sidx])
        (cache_read_ahead hints sidx)
      by_cases hmore : bytes_read + ch <
          (file_read_at_loop ino disk (buffer_cache_read disk sidx buffer dst)
            (size - ch) (file_ofs + ch) (dst + ch) (bytes_read + ch) (sectors ++ [sidx])
            (cache_read_ahead hints sidx)).bytes_read
      · exact ih (by omega) (by omega) hmore
      · have heq : (file_read_at_loop ino disk (buffer_cache_read disk sidx buffer dst)
            (size - ch) (file_ofs + ch) (dst + ch) (bytes_read + ch) (sectors ++ [sidx])
            (cache_read_ahead hints sidx)).bytes_read = bytes_read + ch := by omega
        have hst := file_read_at_loop_stationary ino disk (buffer_cache_read disk sidx buffer dst)
          (size - ch) (file_ofs + ch) (dst + ch) (bytes_read + ch) (sectors ++ [sidx])
          (cache_read_ahead hints sidx) heq
        rw [hst]
        refine ⟨sidx, ch, by omega, by omega, ?_⟩
        intro j hj1 hj2
        simp only at hj1 hj2 ⊢
        show buffer_cache_read disk sidx buffer dst j = disk sidx (j - (bytes_read + ch - ch))
        unfold buffer_cache_read
        rw [if_pos (by constructor <;> omega)]
        congr 1
        omega

theorem file_read_at_loop_hints (ino : Inode) (disk : Int → Int → Int) (buffer : Buf)
    (size file_ofs dst bytes_read : Int) (sectors hints : List Int) :
    hints = sectors.map (fun s => s + 1) →
    (file_read_at_loop ino disk buffer size file_ofs dst bytes_read sectors hints).hints =
      (file_read_at_loop ino disk buffer size file_ofs dst bytes_read sectors hints).sectors.map
        (fun s => s + 1) := by
  induction buffer, size, file_ofs, dst, bytes_read, sectors, hints using file_read_at_loop.induct ino disk with
  | case1 buffer size file_ofs dst bytes_read sectors hints h =>
      intro hh
      rw [file_read_at_loop.eq_def]
      simp only [dif_pos h]
      exact hh
  | case2 buffer size file_ofs dst bytes_read sectors hints h1 sidx h2 =>
      intro hh
      rw [file_read_at_loop.eq_def]
      simp only [dif_neg h1, dif_pos h2]
      exact hh
  | case3 buffer size file_ofs dst bytes_read sectors hints h1 sidx h2 so il sl ml ch h3 =>
      intro hh
      rw [file_read_at_loop.eq_def]
      simp only [dif_neg h1, dif_neg h2, dif_pos h3]
      exact hh
  | case4 buffer size file_ofs dst bytes_read sectors hints h1 sidx h2 so il sl ml ch h3 ih =>
      intro hh
      rw [file_read_at_loop.eq_def]
      simp only [dif_neg h1, dif_neg h2, dif_neg h3]
      exact ih (by simp [cache_read_ahead, hh])

theorem mem_insert_ordered (q : List DiskRequest) (r b : DiskRequest) :
    b ∈ list_insert_ordered q r ↔ b = r ∨ b ∈ q := by
  induction q with
  | nil => simp [list_insert_ordered]
  | cons x xs ih =>
      rw [list_insert_ordered]
      by_cases hc : disk_request_compare r x = true
      · rw [if_pos hc]
        simp [List.mem_cons]
      · rw [if_neg hc]
        simp [List.mem_cons, ih]
        tauto

theorem insert_ordered_sorted (q : List DiskRequest) (r : DiskRequest)
    (h : q.Pairwise deadlineLE) : (list_insert_ordered q r).Pairwise deadlineLE := by
  induction q with
  | nil => simp [list_insert_ordered]
  | cons x xs ih =>
      rcases List.pairwise_cons.mp h with ⟨hx, hxs⟩
      rw [list_insert_ordered]
      by_cases hc : disk_request_compare r x = true
      · rw [if_pos hc]
        have hrx : r.deadline < x.deadline := by
          simpa [disk_request_compare] using hc
        refine List.pairwise_cons.mpr ⟨?_, h⟩
        intro b hb
        rcases List.mem_cons.mp hb with rfl | hbxs
        · exact le_of_lt hrx
        · exact le_trans (le_of_lt hrx) (hx b hbxs)
      · rw [if_neg hc]
        have hxr : ¬ r.deadline < x.deadline := by
          simpa [disk_request_compare] using hc
        refine List.pairwise_cons.mpr ⟨?_, ih hxs⟩
        intro b hb
        rcases (mem_insert_ordered xs r b).mp hb with rfl | hbxs
        · show x.deadline ≤ b.deadline
          omega
        · exact hx b hbxs

theorem insert_ordered_filter (q : List DiskRequest) (r : DiskRequest) (d : Int)
    (h : q.Pairwise deadlineLE) :
    (list_insert_ordered q r).filter (fun x => decide (x.deadline = d)) =
      q.filter (fun x => decide (x.deadline = d)) ++ (if r.deadline = d then [r] else []) := by
  induction q with
  | nil => by_cases hr : r.deadline = d <;> simp [list_insert_ordered, hr]
  | cons x xs ih =>
      rcases List.pairwise_cons.mp h with ⟨hx, hxs⟩
      rw [list_insert_ordered]
      by_cases hc : disk_request_compare r x = true
      · rw [if_pos hc]
        have hrx : r.deadline < x.deadline := by
          simpa [disk_request_compare] using hc
        by_cases hr : r.deadline = d
        · have hnil : (x :: xs).filter (fun y => decide (y.deadline = d)) = [] := by
            rw [List.filter_eq_nil_iff]
            intro b hb
            rcases List.mem_cons.mp hb with rfl | hbxs
            · simp; omega
            · have hxb : x.deadline ≤ b.deadline := hx b hbxs
              simp; omega
          rw [List.filter_cons_of_pos (by simp [hr])]
          rw [hnil, if_pos hr]
          simp
        · rw [List.filter_cons_of_neg (by simp [hr])]
          rw [if_neg hr]
          simp
      · rw [if_neg hc]
        rw [List.filter_cons, List.filter_cons, ih hxs]
        by_cases hx' : x.deadline = d <;> simp [hx']

theorem enqueueAll_go (reqs : List DiskRequest) : ∀ acc, acc.Pairwise deadlineLE →
    (reqs.foldl list_insert_ordered acc).Pairwise deadlineLE ∧
    ∀ d, (reqs.foldl list_insert_ordered acc).filter (fun x => decide (x.deadline = d)) =
      acc.filter (fun x => decide (x.deadline = d)) ++
        reqs.filter (fun x => decide (x.deadline = d)) := by
  induction reqs with
  | nil =>
      intro acc h
      exact ⟨h, fun d => by simp⟩
  | cons r rs ih =>
      intro acc h
      have h1 := insert_ordered_sorted acc r h
      obtain ⟨hs, hf⟩ := ih (list_insert_ordered acc r) h1
      refine ⟨hs, ?_⟩
      intro d
      rw [List.foldl_cons, hf d, insert_ordered_filter acc r d h, List.filter_cons]
      by_cases hr : r.deadline = d <;> simp [hr]

theorem netDenials_append (cs ds : List InodeCall) :
    netDenials (cs ++ ds) = netDenials cs + netDenials ds := by
  induction cs with
  | nil => simp [netDenials]
  | cons c cs ih => cases c <;> simp [netDenials, ih] <;> omega

theorem runOps_net_go (ops : List FileOp) : ∀ (f : File) (cs : List InodeCall),
    netDenials ((ops.foldl applyOp (f, cs)).2) + (if f.deny_write then (1:Int) else 0) =
      netDenials cs + (if (ops.foldl applyOp (f, cs)).1.deny_write then (1:Int) else 0) := by
  induction ops with
  | nil =>
      intro f cs
      rw [List.foldl_nil]
  | cons op ops ih =>
      intro f cs
      rw [List.foldl_cons]
      cases op with
      | deny =>
          by_cases hd : f.deny_write
          · have ha : applyOp (f, cs) FileOp.deny = (f, cs) := by
              simp [applyOp, file_deny_write, hd]
            rw [ha, ih f cs]
          · have ha : applyOp (f, cs) FileOp.deny =
                ({ f with deny_write := true }, cs ++ [InodeCall.denyWrite]) := by
              simp [applyOp, file_deny_write, hd]
            rw [ha]
            have hr := ih ({ f with deny_write := true }) (cs ++ [InodeCall.denyWrite])
            rw [netDenials_append] at hr
            simp [netDenials, hd] at hr ⊢
            omega
      | allow =>
          by_cases hd : f.deny_write
          · have ha : applyOp (f, cs) FileOp.allow =
                ({ f with deny_write := false }, cs ++ [InodeCall.allowWrite]) := by
              simp [applyOp, file_allow_write, hd]
            rw [ha]
            have hr := ih ({ f with deny_write := false }) (cs ++ [InodeCall.allowWrite])
            rw [netDenials_append] at hr
            simp [netDenials, hd] at hr ⊢
            omega
          · have ha : applyOp (f, cs) FileOp.allow = (f, cs) := by
              simp [applyOp, file_allow_write, hd]
            rw [ha, ih f cs]

theorem demo_eval : (file_read_at demo_file demo_disk demo_buf 2 511).2 =
    ⟨2, buffer_cache_read demo_disk 1 (buffer_cache_read demo_disk 0 demo_buf 0) 1,
      [0, 1], [1, 2]⟩ := by
  have len1 : demo_inode.length = 1024 := rfl
  have s1 : demo_inode.sectorOf 511 = 0 := by norm_num [demo_inode]
  have s2 : demo_inode.sectorOf 512 = 1 := by norm_num [demo_inode]
  have t1 : Int.tmod 511 512 = 511 := by decide
  have t2 : Int.tmod 512 512 = 0 := by decide
  show file_read_at_loop demo_inode demo_disk demo_buf 2 511 0 0 [] [] = _
  rw [file_read_at_loop.eq_def]
  simp only [s1, BLOCK_SECTOR_SIZE, t1, len1]
  norm_num [cache_read_ahead]
  rw [file_read_at_loop.eq_def]
  simp only [s2, BLOCK_SECTOR_SIZE, t2, len1]
  norm_num [cache_read_ahead]
  rw [file_read_at_loop.eq_def]
  norm_num

/-- C1: the boundary-split claim fails on the code. At the failing input —
a 1024-byte file whose bytes map contiguously to sectors 0 and 1, and a
read of 2 bytes at offset 511 — `file_read_at` returns count 2 but the
first output byte is byte 0 of sector 0 (value 0), not byte 511 of
sector 0 (value 511) as the two-sector concatenation split at the exact
boundary would require: the loop copies each whole sector starting at the
sector's first byte, ignoring `sector_ofs`. The byte at position 2,
beyond the returned count, is also overwritten with sector content. -/
theorem file_read_at_boundary_read_wrong_bytes :
    ((file_read_at demo_file demo_disk demo_buf 2 511).2).bytes_read = 2 ∧
    ((file_read_at demo_file demo_disk demo_buf 2 511).2).buffer 0 = 0 ∧
    demo_disk 0 511 = 511 ∧
    ((file_read_at demo_file demo_disk demo_buf 2 511).2).buffer 1 = 1000 ∧
    ((file_read_at demo_file demo_disk demo_buf 2 511).2).buffer 2 = 1001 ∧
    demo_buf 2 = -1 := by
  rw [demo_eval]
  refine ⟨rfl, ?_, ?_, ?_, ?_, rfl⟩ <;>
    norm_num [buffer_cache_read, demo_disk, demo_buf, BLOCK_SECTOR_SIZE]

/-- C2: the disk queue built by any sequence of enqueues is in
non-decreasing deadline order; among requests with equal deadlines the
queue preserves submission order (the per-deadline subsequence of the
queue equals the per-deadline subsequence of the submission list); and
popping the front preserves the order, so the worker loop drains the
queue in non-decreasing deadline order with FIFO tie-break. -/
theorem disk_queue_deadline_order_stable :
    (∀ reqs : List DiskRequest, (enqueueAll reqs).Pairwise deadlineLE) ∧
    (∀ (reqs : List DiskRequest) (d : Int),
      (enqueueAll reqs).filter (fun x => decide (x.deadline = d)) =
        reqs.filter (fun x => decide (x.deadline = d))) ∧
    (∀ q : List DiskRequest, q.Pairwise deadlineLE → (disk_pop q).Pairwise deadlineLE) := by
  refine ⟨?_, ?_, ?_⟩
  · intro reqs
    exact (enqueueAll_go reqs [] (by simp)).1
  · intro reqs d
    have h := (enqueueAll_go reqs [] (by simp)).2 d
    simpa [enqueueAll] using h
  · intro q h
    cases q with
    | nil => simp [disk_pop]
    | cons x xs => exact (List.pairwise_cons.mp h).2

/-- Witness for C2 at concrete queues: a three-request submission with a
deadline tie, and a concrete sorted queue surviving a pop. -/
theorem disk_queue_deadline_order_stable_witness :
    (enqueueAll [⟨1, false, 10, 5⟩, ⟨2, true, 11, 3⟩, ⟨3, false, 12, 3⟩]).Pairwise deadlineLE ∧
    (enqueueAll [⟨1, false, 10, 5⟩, ⟨2, true, 11, 3⟩, ⟨3, false, 12, 3⟩]).filter
        (fun x => decide (x.deadline = 3)) =
      ([⟨1, false, 10, 5⟩, ⟨2, true, 11, 3⟩, ⟨3, false, 12, 3⟩] :
        List DiskRequest).filter (fun x => decide (x.deadline = 3)) ∧
    (disk_pop [⟨2, true, 11, 3⟩, ⟨1, false, 10, 5⟩]).Pairwise deadlineLE := by
  refine ⟨?_, ?_, ?_⟩
  · exact disk_queue_deadline_order_stable.1 [⟨1, false, 10, 5⟩, ⟨2, true, 11, 3⟩, ⟨3, false, 12, 3⟩]
  · exact disk_queue_deadline_order_stable.2.1 [⟨1, false, 10, 5⟩, ⟨2, true, 11, 3⟩, ⟨3, false, 12, 3⟩] 3
  · exact disk_queue_deadline_order_stable.2.2 [⟨2, true, 11, 3⟩, ⟨1, false, 10, 5⟩] (by decide)

/-- C3: on an inode whose every byte offset below its length maps to a
sector, a read whose range passes the end of file returns exactly
`length - offset` bytes, a read starting at or past the end of file
returns 0, a zero-length request returns 0, and the count never exceeds
the requested size. -/
theorem file_read_at_truncation (f : File) (disk : Int → Int → Int) (buffer : Buf)
    (size file_ofs : Int)
    (hmap : ∀ o, 0 ≤ o → o < f.inode.length → f.inode.sectorOf o ≠ -1)
    (hofs : 0 ≤ file_ofs) (hsz : 0 ≤ size) :
    (f.inode.length < file_ofs + size → file_ofs < f.inode.length →
      ((file_read_at f disk buffer size file_ofs).2).bytes_read = f.inode.length - file_ofs) ∧
    (f.inode.length ≤ file_ofs → ((file_read_at f disk buffer size file_ofs).2).bytes_read = 0) ∧
    (size = 0 → ((file_read_at f disk buffer size file_ofs).2).bytes_read = 0) ∧
    ((file_read_at f disk buffer size file_ofs).2).bytes_read ≤ size := by
  have hc : ((file_read_at f disk buffer size file_ofs).2).bytes_read =
      0 + max 0 (min size (f.inode.length - file_ofs)) :=
    file_read_at_loop_count f.inode disk buffer size file_ofs 0 0 [] [] hmap hofs
  exact ⟨fun h1 h2 => by omega, fun h1 => by omega, fun h1 => by omega, by omega⟩

/-- Witness for C3: reading 100 bytes at offset 1000 of the 1024-byte
demo file returns exactly 24 bytes. -/
theorem file_read_at_truncation_witness :
    ((file_read_at demo_file demo_disk demo_buf 100 1000).2).bytes_read = 1024 - 1000 := by
  have hmap : ∀ o, 0 ≤ o → o < demo_file.inode.length → demo_file.inode.sectorOf o ≠ -1 := by
    intro o h1 h2
    have h2x : o < 1024 := h2
    show (if 0 ≤ o ∧ o < 1024 then o / 512 else -1) ≠ -1
    rw [if_pos ⟨h1, h2x⟩]
    omega
  have h := file_read_at_truncation demo_file demo_disk demo_buf 100 1000 hmap
    (by norm_num) (by norm_num)
  have h1 := h.1 (by norm_num [demo_file, demo_inode]) (by norm_num [demo_file, demo_inode])
  exact h1

/-- C4: every `file_read_at` call issues exactly one read-ahead hint per
consumed sector, and each hint names the sector immediately following the
one just read: the hint trace is the consumed-sector trace shifted by
one, so consuming sectors 0, 1, 2 yields hints for sectors 1, 2, 3. -/
theorem file_read_at_read_ahead_hints (f : File) (disk : Int → Int → Int) (buffer : Buf)
    (size file_ofs : Int) :
    ((file_read_at f disk buffer size file_ofs).2).hints =
      ((file_read_at f disk buffer size file_ofs).2).sectors.map (fun s => s + 1) :=
  file_read_at_loop_hints f.inode disk buffer size file_ofs 0 0 [] [] rfl

/-- C5: `file_open` returns a null result exactly when the inode argument
is absent or allocation fails; on every failure the `inode_close` call
runs (so a non-absent inode reference is released and never leaks); on
success the handle holds the inode with `pos = 0` and
`deny_write = false`. -/
theorem file_open_spec (i : Option Inode) (allocOk : Bool) :
    ((file_open i allocOk).1 = none ↔ (i = none ∨ allocOk = false)) ∧
    ((file_open i allocOk).1 = none → (file_open i allocOk).2 = true) ∧
    (∀ ino : Inode, i = some ino → allocOk = true →
      (file_open i allocOk).1 = some { inode := ino, pos := 0, deny_write := false }) := by
  cases i <;> cases allocOk <;> simp [file_open]

/-- Witness for C5: failure on allocation failure releases the inode;
success on the demo inode yields the zeroed handle. -/
theorem file_open_spec_witness :
    (file_open (some demo_inode) false).1 = none ∧
    (file_open (some demo_inode) false).2 = true ∧
    (file_open (some demo_inode) true).1 =
      some { inode := demo_inode, pos := 0, deny_write := false } := by
  have h1 := (file_open_spec (some demo_inode) false).1.mpr (Or.inr rfl)
  have h2 := (file_open_spec (some demo_inode) false).2.1 h1
  have h3 := (file_open_spec (some demo_inode) true).2.2 demo_inode rfl rfl
  exact ⟨h1, h2, h3⟩

/-- C6: `file_deny_write` on an already-denying handle and
`file_allow_write` on a non-denying handle are no-ops (state and inode
trace unchanged); and from a fresh handle, any sequence of deny/allow
operations leaves the net count of propagated inode denials equal to the
final flag — hence at most one net outstanding inode denial per handle. -/
theorem file_deny_allow_write_idempotent (f : File) (ops : List FileOp)
    (hstart : f.deny_write = false) :
    (∀ g : File, g.deny_write = true → file_deny_write g = (g, [])) ∧
    (∀ g : File, g.deny_write = false → file_allow_write g = (g, [])) ∧
    netDenials ((runOps f ops).2) =
      (if (runOps f ops).1.deny_write then 1 else 0) ∧
    (netDenials ((runOps f ops).2) = 0 ∨ netDenials ((runOps f ops).2) = 1) := by
  have h : netDenials ((runOps f ops).2) + (if f.deny_write then (1:Int) else 0) =
      netDenials ([] : List InodeCall) + (if (runOps f ops).1.deny_write then (1:Int) else 0) :=
    runOps_net_go ops f []
  rw [hstart] at h
  simp [netDenials] at h
  have hnet : netDenials ((runOps f ops).2) =
      (if (runOps f ops).1.deny_write then 1 else 0) := by
    by_cases hfin : (runOps f ops).1.deny_write
    · simp only [hfin] at h ⊢
      simpa using h
    · simp only [hfin] at h ⊢
      simpa using h
  refine ⟨?_, ?_, hnet, ?_⟩
  · intro g hg
    simp [file_deny_write, hg]
  · intro g hg
    simp [file_allow_write, hg]
  · by_cases hfin : (runOps f ops).1.deny_write
    · rw [hnet, if_pos hfin]
      exact Or.inr rfl
    · rw [hnet, if_neg hfin]
      exact Or.inl rfl

/-- Witness for C6: deny, redundant deny, then allow on the fresh demo
handle leaves zero net outstanding inode denials. -/
theorem file_deny_allow_write_idempotent_witness :
    demo_file.deny_write = false ∧
    netDenials ((runOps demo_file [FileOp.deny, FileOp.deny, FileOp.allow]).2) =
      (if (runOps demo_file [FileOp.deny, FileOp.deny, FileOp.allow]).1.deny_write then 1 else 0) :=
  ⟨rfl, (file_deny_allow_write_idempotent demo_file
    [FileOp.deny, FileOp.deny, FileOp.allow] rfl).2.2.1⟩

/-- C7: `file_read_at` and `file_write_at` leave the handle untouched for
every size and offset: the handle, and in particular its `pos`,
`deny_write` and inode fields, are unchanged by the call. -/
theorem file_read_write_at_preserve_handle (f : File) (disk : Int → Int → Int) (buffer : Buf)
    (size file_ofs wsize wofs : Int) :
    (file_read_at f disk buffer size file_ofs).1 = f ∧
    (file_read_at f disk buffer size file_ofs).1.pos = f.pos ∧
    (file_read_at f disk buffer size file_ofs).1.deny_write = f.deny_write ∧
    (file_read_at f disk buffer size file_ofs).1.inode = f.inode ∧
    (file_write_at f wsize wofs).1 = f ∧
    (file_write_at f wsize wofs).1.pos = f.pos :=
  ⟨rfl, rfl, rfl, rfl, rfl, rfl⟩

/-- C8: `file_close` is a no-op on a null handle; on a non-null handle it
emits `inode_allow_write` exactly when this handle had denied writes, and
the `inode_close` release always comes after, in that order. -/
theorem file_close_trace :
    file_close none = [] ∧
    (∀ f : File, f.deny_write = true →
      file_close (some f) = [InodeCall.allowWrite, InodeCall.closeInode]) ∧
    (∀ f : File, f.deny_write = false → file_close (some f) = [InodeCall.closeInode]) := by
  refine ⟨rfl, ?_, ?_⟩ <;> intro f hf <;> simp [file_close, file_allow_write, hf]

/-- Witness for C8: concrete denying and non-denying handles. -/
theorem file_close_trace_witness :
    file_close none = [] ∧
    file_close (some { inode := demo_inode, pos := 3, deny_write := true }) =
      [InodeCall.allowWrite, InodeCall.closeInode] ∧
    file_close (some demo_file) = [InodeCall.closeInode] :=
  ⟨file_close_trace.1,
    file_close_trace.2.1 { inode := demo_inode, pos := 3, deny_write := true } rfl,
    file_close_trace.2.2 demo_file rfl⟩

/-- C9: the claim fails on the code. `disk_schedule_request` does not
surface allocation failure as an error: when `malloc` returns null the
next statement stores through the null pointer (the function is
void-returning, so no error result can reach the caller); only the
success path inserts the request. -/
theorem disk_schedule_request_alloc_failure_faults :
    disk_schedule_request false [] 3 false 0 7 = SchedResult.nullDereference ∧
    disk_schedule_request true [] 3 false 0 7 =
      SchedResult.ok [{ sector := 3, is_write := false, data := 0, deadline := 7 }] :=
  ⟨rfl, rfl⟩

/-- C10: the cache fetch in each iteration stores the entire sector into
the caller's buffer at the output offset rather than only the chunk
sub-range: for every read that consumes at least one byte, there is a
last chunk `c` with `0 < c ≤ BLOCK_SECTOR_SIZE` such that the whole
window of `BLOCK_SECTOR_SIZE` buffer bytes starting at `bytes_read - c`
holds that sector's content from byte 0 — so whenever `c` is smaller
than a full sector, the `BLOCK_SECTOR_SIZE - c` buffer bytes beyond the
returned count are overwritten. -/
theorem file_read_at_overwrites_past_count (f : File) (disk : Int → Int → Int) (buffer : Buf)
    (size file_ofs : Int) (hofs : 0 ≤ file_ofs)
    (hpos : 0 < ((file_read_at f disk buffer size file_ofs).2).bytes_read) :
    ∃ s c, 0 < c ∧ c ≤ BLOCK_SECTOR_SIZE ∧
      ∀ j, ((file_read_at f disk buffer size file_ofs).2).bytes_read - c ≤ j →
        j < ((file_read_at f disk buffer size file_ofs).2).bytes_read - c + BLOCK_SECTOR_SIZE →
        ((file_read_at f disk buffer size file_ofs).2).buffer j =
          disk s (j - (((file_read_at f disk buffer size file_ofs).2).bytes_read - c)) :=
  file_read_at_loop_last_window f.inode disk buffer size file_ofs 0 0 [] [] hofs rfl hpos

/-- Witness for C10 at the demo boundary read, which consumes 2 bytes. -/
theorem file_read_at_overwrites_past_count_witness :
    0 ≤ (511 : Int) ∧
    0 < ((file_read_at demo_file demo_disk demo_buf 2 511).2).bytes_read ∧
    ∃ s c, 0 < c ∧ c ≤ BLOCK_SECTOR_SIZE ∧
      ∀ j, ((file_read_at demo_file demo_disk demo_buf 2 511).2).bytes_read - c ≤ j →
        j < ((file_read_at demo_file demo_disk demo_buf 2 511).2).bytes_read - c
          + BLOCK_SECTOR_SIZE →
        ((file_read_at demo_file demo_disk demo_buf 2 511).2).buffer j =
          demo_disk s (j - (((file_read_at demo_file demo_disk demo_buf 2 511).2).bytes_read - c)) := by
  have hb : 0 < ((file_read_at demo_file demo_disk demo_buf 2 511).2).bytes_read := by
    rw [demo_eval]
    norm_num
  exact ⟨by norm_num, hb,
    file_read_at_overwrites_past_count demo_file demo_disk demo_buf 2 511 (by norm_num) hb⟩
